import Mathlib

/-!
Verification of the `file_io` library (a convenience layer over native
filesystem operations) against its specification.

The filesystem region an operation touches is modelled as an association
list of regular files together with a list of existing directories; paths
are lists of path segments.  Fallible OS calls (`std::fs::write`,
`std::fs::create_dir_all`, `std::fs::read_to_string`, `std::fs::copy`,
`std::env::set_current_dir`) are modelled in `Except`, with `.error`
standing for the `Err` that the library turns into a panic.
-/

/-- Filesystem paths are modelled as lists of path segments. -/
abbrev FPath := List String

/-- Contents of a regular file as observed through the OS: either text that
`std::fs::read_to_string` can return, or a file whose read fails
(inaccessible or non-UTF-8 content). -/
inductive FileData where
  | text (s : String)
  | unreadable
deriving DecidableEq

/-- Model of the filesystem region an operation touches: an association
list of regular files (first binding wins) and a list of existing
directories.  `writes` counts calls to `std::fs::write`, so that "the file
is not written at all" (observable through its modification time) is
visible in the model. -/
structure FS where
  files : List (FPath × FileData)
  dirs : List FPath
  writes : Nat := 0
deriving DecidableEq

/-- First-binding-wins lookup in an association list of files. -/
def lookupF : List (FPath × FileData) → FPath → Option FileData
  | [], _ => none
  | (q, d) :: rest, p => if q = p then some d else lookupF rest p

/-- Read the binding of a file path. -/
def FS.getF (fs : FS) (p : FPath) : Option FileData := lookupF fs.files p

/-- Rust `Path::is_dir`. -/
def FS.is_dir (fs : FS) (p : FPath) : Bool := decide (p ∈ fs.dirs)

/-- Rust `Path::is_file`. -/
def FS.is_file (fs : FS) (p : FPath) : Bool := (fs.getF p).isSome

/-- Rust `Path::exists`. -/
def FS.existsP (fs : FS) (p : FPath) : Bool := fs.is_file p || fs.is_dir p

/-- Nonempty prefixes of a path (every ancestor including the path itself,
excluding the root). -/
def inits' (p : FPath) : List FPath := p.inits.filter (fun q => decide (q ≠ []))

/-- Rust `std::fs::write`: fails when `p` is the root, is a directory, or
its parent is not an existing directory; otherwise it replaces the binding
of `p` and bumps the write counter. -/
def FS.writeF (fs : FS) (p : FPath) (d : FileData) : Except String FS :=
  if p = [] then .error "write to root"
  else if p ∈ fs.dirs then .error "write to a directory"
  else if p.dropLast ≠ [] ∧ p.dropLast ∉ fs.dirs then .error "missing parent"
  else .ok { files := (p, d) :: fs.files.filter (fun pd => decide (pd.1 ≠ p)),
             dirs := fs.dirs, writes := fs.writes + 1 }

/-- Rust `std::fs::create_dir_all`: creates every missing ancestor of `p`
(and `p` itself) as a directory; fails when one of them currently exists
as a regular file. -/
def FS.create_dir_all (fs : FS) (p : FPath) : Except String FS :=
  if (inits' p).any (fun q => (fs.getF q).isSome) then .error "blocked by a file"
  else .ok { fs with dirs := (inits' p).filter (fun q => decide (q ∉ fs.dirs)) ++ fs.dirs }

/-- Source `create_folder`: a no-op when the path already exists, otherwise
`std::fs::create_dir_all`. -/
def create_folder (fs : FS) (p : FPath) : Except String FS :=
  if fs.existsP p then .ok fs else fs.create_dir_all p

/-- Source `create_folder_for_file`: create the parent folder of a file
path (`Path::parent`, which is the path without its last segment). -/
def create_folder_for_file (fs : FS) (p : FPath) : Except String FS :=
  create_folder fs p.dropLast

/-- Source `load_file_as_string`: `std::fs::read_to_string`, fatal on
failure. -/
def load_file_as_string (fs : FS) (p : FPath) : Except String String :=
  match fs.getF p with
  | some (.text s) => .ok s
  | _ => .error "failed to read file"

/-- Source `save_string_to_file`: create the parent folder, then write the
whole file. -/
def save_string_to_file (content : String) (p : FPath) (fs : FS) : Except String FS := do
  let fs1 ← create_folder_for_file fs p
  fs1.writeF p (.text content)

/-- Well-formedness of a filesystem region as the OS maintains it: entries
are pairwise distinct paths, no entry sits at the root, and the parent
chain of every entry consists of directories of the region. -/
def allPaths (fs : FS) : List FPath := fs.files.map Prod.fst ++ fs.dirs

/-- Well-formed filesystem regions (see `allPaths`). -/
def FS.WF (fs : FS) : Prop :=
  (allPaths fs).Nodup ∧
  ∀ p ∈ allPaths fs, p ≠ [] ∧ ∀ q ∈ inits' p.dropLast, q ∈ fs.dirs

instance (fs : FS) : Decidable fs.WF := by
  unfold FS.WF; infer_instance

/-- Strict lexicographic comparison of char lists (the order Rust uses on
`str`, since UTF-8 byte order agrees with scalar-value order). -/
def charsLT : List Char → List Char → Bool
  | [], [] => false
  | [], _ :: _ => true
  | _ :: _, [] => false
  | a :: as, b :: bs => if a < b then true else if b < a then false else charsLT as bs

/-- Strict lexicographic comparison of strings via their char lists. -/
def segLT (a b : String) : Bool := charsLT a.data b.data

theorem charsLT_irrefl (l : List Char) : charsLT l l = false := by
  induction l with
  | nil => rfl
  | cons a as ih => simp [charsLT, ih]

theorem charsLT_trans {a b c : List Char} (h1 : charsLT a b = true)
    (h2 : charsLT b c = true) : charsLT a c = true := by
  induction a generalizing b c with
  | nil =>
    cases b with
    | nil => simp [charsLT] at h1
    | cons y ys => cases c with
      | nil => simp [charsLT] at h2
      | cons z zs => rfl
  | cons x xs ih =>
    cases b with
    | nil => simp [charsLT] at h1
    | cons y ys =>
      cases c with
      | nil => simp [charsLT] at h2
      | cons z zs =>
        simp only [charsLT] at h1 h2 ⊢
        rcases lt_trichotomy x y with hxy | hxy | hxy
        · rcases lt_trichotomy y z with hyz | hyz | hyz
          · simp [lt_trans hxy hyz]
          · subst hyz; simp [hxy]
          · simp only [if_pos hyz] at h2
            rcases lt_trichotomy x z with h | h | h
            · simp [h]
            · exact absurd h2 (by simp [hyz, asymm hyz])
            · exact absurd h2 (by simp [hyz, asymm hyz])
        · subst hxy
          simp only [if_neg (lt_irrefl x), if_neg (lt_irrefl x)] at h1
          rcases lt_trichotomy x z with h | h | h
          · simp [h]
          · subst h
            simp only [if_neg (lt_irrefl x)] at h2 ⊢
            exact ih h1 h2
          · simp only [if_neg (asymm h), if_pos h] at h2
            exact absurd h2 (by simp)
        · simp only [if_neg (asymm hxy), if_pos hxy] at h1
          exact absurd h1 (by simp)

theorem charsLT_trichot {a b : List Char} (h : a ≠ b) :
    charsLT a b = true ∨ charsLT b a = true := by
  induction a generalizing b with
  | nil =>
    cases b with
    | nil => exact absurd rfl h
    | cons y ys => left; rfl
  | cons x xs ih =>
    cases b with
    | nil => right; rfl
    | cons y ys =>
      rcases lt_trichotomy x y with hxy | hxy | hxy
      · left; simp [charsLT, hxy]
      · subst hxy
        have hne : xs ≠ ys := by intro hh; exact h (by rw [hh])
        rcases ih hne with hlt | hlt
        · left; simp [charsLT, hlt]
        · right; simp [charsLT, hlt]
      · right; simp [charsLT, hxy]

/-- Lexicographic order on paths, segment by segment by string order.  For
entries of one directory (a common prefix plus one segment) it coincides
with ascending lexicographic order on the full path strings, which is the
order `Vec::sort` produces on the `PathBuf`s returned by `read_dir`. -/
def pathLE : FPath → FPath → Bool
  | [], _ => true
  | _ :: _, [] => false
  | a :: as, b :: bs => if segLT a b then true else if segLT b a then false else pathLE as bs

/-- Propositional form of `pathLE`, used as the sorting relation. -/
def pathR (p q : FPath) : Prop := pathLE p q = true

instance : DecidableRel pathR := fun p q =>
  inferInstanceAs (Decidable (pathLE p q = true))

theorem segLT_irrefl (a : String) : segLT a a = false := charsLT_irrefl _

theorem segLT_trans {a b c : String} (h1 : segLT a b = true)
    (h2 : segLT b c = true) : segLT a c = true := charsLT_trans h1 h2

theorem segLT_conn {a b : String} (h1 : segLT a b = false)
    (h2 : segLT b a = false) : a = b := by
  by_contra hne
  have : a.data ≠ b.data := fun hd => hne (by
    cases a; cases b; exact congrArg String.mk hd)
  rcases charsLT_trichot this with h | h
  · rw [segLT] at h1; simp [h1] at h
  · rw [segLT] at h2; simp [h2] at h

theorem pathLE_total (p q : FPath) : pathLE p q = true ∨ pathLE q p = true := by
  induction p generalizing q with
  | nil => left; rfl
  | cons a as ih =>
    cases q with
    | nil => right; rfl
    | cons b bs =>
      cases hab : segLT a b with
      | true => left; simp [pathLE, hab]
      | false =>
        cases hba : segLT b a with
        | true => right; simp [pathLE, hba]
        | false =>
          rcases ih bs with h | h
          · left; simp [pathLE, hab, hba, h]
          · right; simp [pathLE, hab, hba, h]

theorem pathLE_trans {p q r : FPath} (h1 : pathLE p q = true)
    (h2 : pathLE q r = true) : pathLE p r = true := by
  induction p generalizing q r with
  | nil => rfl
  | cons a as ih =>
    cases q with
    | nil => simp [pathLE] at h1
    | cons b bs =>
      cases r with
      | nil => simp [pathLE] at h2
      | cons c cs =>
        simp only [pathLE] at h1 h2 ⊢
        cases hab : segLT a b with
        | true =>
          cases hbc : segLT b c with
          | true => simp [segLT_trans hab hbc]
          | false =>
            cases hcb : segLT c b with
            | true => simp [hab, hbc, hcb] at h2
            | false =>
              have : b = c := segLT_conn hbc hcb
              subst this
              simp [hab]
        | false =>
          cases hba : segLT b a with
          | true => simp [hab, hba] at h1
          | false =>
            have hab' : a = b := segLT_conn hab hba
            subst hab'
            simp only [hab, hba, if_neg, Bool.false_eq_true, ite_false] at h1 ⊢
            cases hac : segLT a c with
            | true => simp
            | false =>
              cases hca : segLT c a with
              | true => simp [hac, hca] at h2
              | false =>
                have : a = c := segLT_conn hac hca
                subst this
                simp only [hac, Bool.false_eq_true, ite_false] at h2 ⊢
                exact ih h1 h2

instance : IsTotal FPath pathR := ⟨pathLE_total⟩

instance : IsTrans FPath pathR := ⟨fun _ _ _ => pathLE_trans⟩

/-- A prefix sorts no later than any path extending it, so sorting by
`pathR` puts every ancestor before its descendants: a sorted enumeration
of a tree region is one of the admissible depth-first pre-orders of the
directory walker (whose sibling order is unspecified). -/
theorem pathLE_prefix {p q : FPath} (h : p <+: q) : pathLE p q = true := by
  induction p generalizing q with
  | nil => rfl
  | cons a as ih =>
    cases q with
    | nil => simp at h
    | cons b bs =>
      rcases List.cons_prefix_cons.mp h with ⟨rfl, htl⟩
      simpa [pathLE, segLT_irrefl] using ih htl

/-- Entries of the region reachable below `root`, in walker order: the
`WalkDir` traversal is depth-first with unspecified sibling order, so the
model fixes the admissible order that sorts by `pathR` (ancestors always
precede descendants, by `pathLE_prefix`). -/
def walk (fs : FS) (root : FPath) : List FPath :=
  List.insertionSort pathR ((allPaths fs).filter (fun q => root.isPrefixOf q))

/-- Rust `str::contains` over char lists: the pattern occurs as a
contiguous substring. -/
def listContains (hay pat : List Char) : Bool :=
  (List.range (hay.length + 1)).any (fun i => pat.isPrefixOf (hay.drop i))

/-- Fuel-driven core of Rust `str::replace` for a nonempty pattern:
replace leftmost non-overlapping occurrences.  With `fuel ≥ hay.length`
the fuel never runs out. -/
def replaceCore (pat rep : List Char) : Nat → List Char → List Char
  | 0, hay => hay
  | _ + 1, [] => []
  | fuel + 1, c :: rest =>
    if pat.isPrefixOf (c :: rest) then
      rep ++ replaceCore pat rep fuel ((c :: rest).drop pat.length)
    else c :: replaceCore pat rep fuel rest

/-- Rust `str::replace`: all non-overlapping occurrences, leftmost first.
The empty pattern matches at every char boundary, so `rep` is inserted
before every char and once at the end. -/
def listReplace (hay pat rep : List Char) : List Char :=
  if pat = [] then rep ++ hay.flatMap (fun c => c :: rep)
  else replaceCore pat rep hay.length hay

/-- Rust `str::contains` on strings. -/
def strContains (hay pat : String) : Bool := listContains hay.data pat.data

/-- Rust `str::replace` on strings. -/
def strReplace (hay pat rep : String) : String := ⟨listReplace hay.data pat.data rep.data⟩

/-- Process state for the working-directory component: the current working
directory, the set of existing accessible directories, and a counter of
restorations performed (each `Drop` of a guard performs exactly one). -/
structure SysState where
  cwd : FPath
  dirs : List FPath
  restores : Nat := 0
deriving DecidableEq

/-- Source `CdGuard`: holds exactly the original working directory captured
at construction. -/
structure CdGuard where
  original_cwd : FPath
deriving DecidableEq

/-- Source `CdGuard::new`: record the current working directory as
`original_cwd`, then `std::env::set_current_dir(path)`, which fails (a
panic, modelled as `.error`) when `path` is not an existing accessible
directory. -/
def CdGuard.new (p : FPath) (s : SysState) : Except String (CdGuard × SysState) :=
  if p ∈ s.dirs then .ok (⟨s.cwd⟩, { s with cwd := p })
  else .error "failed to change directory"

/-- Source `impl Drop for CdGuard`: set the working directory back to
`original_cwd`; fails fatally when it is no longer accessible. -/
def CdGuard.drop (g : CdGuard) (s : SysState) : Except String SysState :=
  if g.original_cwd ∈ s.dirs then
    .ok { s with cwd := g.original_cwd, restores := s.restores + 1 }
  else .error "failed to change directory"

/-- Source `cd`: construct a `CdGuard`. -/
def cd (p : FPath) (s : SysState) : Except String (CdGuard × SysState) :=
  CdGuard.new p s

/-- Semantics of a scope `{ let _cd = cd(p); body }`: the body transforms
the state and either returns normally (`none`) or unwinds with a panic
(`some e`).  Rust runs the guard's `Drop` on every exit path of the scope
once the guard was constructed; a construction failure propagates without
running the body. -/
def withCd (p : FPath) (body : SysState → SysState × Option String)
    (s : SysState) : SysState × Option String :=
  match cd p s with
  | .error e => (s, some e)
  | .ok (g, s1) =>
    match body s1 with
    | (s2, r) =>
      match g.drop s2 with
      | .ok s3 => (s3, r)
      | .error e => (s2, some e)

/-- Claim C1 — scoped directory guard law: for an existing accessible
directory `p`, construction records the current working directory as the
original and sets the working directory to `p`; when the scope ends —
normally (`r = none`) or by unwind (`r = some e`) — the working directory
is set back to the recorded original and exactly one restoration fires
(the `restores` counter of the state the body left is bumped exactly
once).  If `p` does not exist or cannot be entered, construction fails
fatally. -/
theorem cd_guard_law (s : SysState) (p : FPath)
    (body : SysState → SysState × Option String) :
    (p ∈ s.dirs →
      cd p s = .ok (⟨s.cwd⟩, { s with cwd := p }) ∧
      ∀ s2 r, body { s with cwd := p } = (s2, r) →
        s.cwd ∈ s2.dirs →
          withCd p body s = ({ s2 with cwd := s.cwd, restores := s2.restores + 1 }, r)) ∧
    (p ∉ s.dirs → cd p s = .error "failed to change directory") := by
  constructor
  · intro hp
    have hc : cd p s = .ok (⟨s.cwd⟩, { s with cwd := p }) := by
      simp [cd, CdGuard.new, hp]
    refine ⟨hc, ?_⟩
    intro s2 r hbody horig
    simp [withCd, hc, hbody, CdGuard.drop, horig]
  · intro hp
    simp [cd, CdGuard.new, hp]

/-- Witness for `cd_guard_law` at a concrete state: entering `tmp` from
`home` and unwinding out of the scope still restores `home`, with exactly
one restoration. -/
theorem cd_guard_law_witness :
    withCd ["tmp"] (fun st => (st, some "boom"))
        { cwd := ["home"], dirs := [["home"], ["tmp"]], restores := 0 } =
      ({ cwd := ["home"], dirs := [["home"], ["tmp"]], restores := 1 },
        some "boom") := by
  exact ((cd_guard_law
      { cwd := ["home"], dirs := [["home"], ["tmp"]], restores := 0 }
      ["tmp"] (fun st => (st, some "boom"))).1 (by decide)).2
    { cwd := ["tmp"], dirs := [["home"], ["tmp"]], restores := 0 }
    (some "boom") rfl (by decide)

theorem lookupF_filter_ne {l : List (FPath × FileData)} {p q : FPath} (h : q ≠ p) :
    lookupF (l.filter (fun pd => decide (pd.1 ≠ p))) q = lookupF l q := by
  induction l with
  | nil => rfl
  | cons pd rest ih =>
    obtain ⟨a, b⟩ := pd
    rw [List.filter_cons]
    by_cases hap : a = p
    · subst hap
      have h1 : (decide ((a, b).1 ≠ a)) = false := by simp
      rw [h1]
      simp only [Bool.false_eq_true, if_false]
      rw [ih]
      have h2 : a ≠ q := Ne.symm h
      simp [lookupF, h2]
    · have h1 : (decide ((a, b).1 ≠ p)) = true := by simp [hap]
      rw [h1]
      simp only [if_true]
      by_cases haq : a = q
      · subst haq; simp [lookupF]
      · simp only [lookupF, if_neg haq]
        exact ih

theorem mem_of_lookupF {l : List (FPath × FileData)} {p : FPath} {d : FileData}
    (h : lookupF l p = some d) : (p, d) ∈ l := by
  induction l with
  | nil => simp [lookupF] at h
  | cons pd rest ih =>
    cases pd with
    | mk a b =>
      by_cases hap : a = p
      · subst hap
        simp [lookupF] at h
        rw [← h]; exact List.mem_cons_self _ _
      · simp only [lookupF, if_neg hap] at h
        exact List.mem_cons_of_mem _ (ih h)

theorem lookupF_isSome_iff {l : List (FPath × FileData)} {p : FPath} :
    (lookupF l p).isSome = true ↔ p ∈ l.map Prod.fst := by
  induction l with
  | nil => simp [lookupF]
  | cons pd rest ih =>
    cases pd with
    | mk a b =>
      by_cases hap : a = p
      · subst hap
        rw [List.map_cons]
        constructor
        · intro _; exact List.mem_cons_self _ _
        · intro _; simp [lookupF]
      · rw [List.map_cons]
        simp only [lookupF, if_neg hap, List.mem_cons]
        rw [ih]
        constructor
        · intro h2; exact Or.inr h2
        · rintro (h2 | h2)
          · exact absurd h2.symm hap
          · exact h2

theorem mem_inits' {q p : FPath} : q ∈ inits' p ↔ q ≠ [] ∧ q <+: p := by
  simp [inits', List.mem_inits, and_comm]

theorem self_mem_inits' {p : FPath} (h : p ≠ []) : p ∈ inits' p :=
  mem_inits'.mpr ⟨h, List.prefix_refl p⟩

theorem prefix_dropLast_of_ne {q p : FPath} (h : q <+: p) (hne : q ≠ p) :
    q <+: p.dropLast := by
  rcases h with ⟨t, rfl⟩
  cases t with
  | nil => simp at hne
  | cons x xs =>
    rw [List.dropLast_append_of_ne_nil _ (by simp)]
    exact ⟨(x :: xs).dropLast, rfl⟩

theorem mem_inits'_dropLast {q p : FPath} (hq : q ∈ inits' p) (hne : q ≠ p) :
    q ∈ inits' p.dropLast := by
  rcases mem_inits'.mp hq with ⟨h1, h2⟩
  exact mem_inits'.mpr ⟨h1, prefix_dropLast_of_ne h2 hne⟩

/-- Disjointness of files and directories in a well-formed region. -/
theorem FS.WF.file_not_dir {fs : FS} (hwf : fs.WF) {p : FPath}
    (hf : (fs.getF p).isSome = true) : p ∉ fs.dirs := by
  have hmem : p ∈ fs.files.map Prod.fst := lookupF_isSome_iff.mp hf
  have := (List.nodup_append.mp hwf.1).2.2
  exact fun hd => this hmem hd

/-- Entries of a well-formed region never sit at the root. -/
theorem FS.WF.ne_nil_of_mem {fs : FS} (hwf : fs.WF) {p : FPath}
    (hp : p ∈ allPaths fs) : p ≠ [] := (hwf.2 p hp).1

/-- The parent chain of any entry of a well-formed region consists of
directories. -/
theorem FS.WF.chain {fs : FS} (hwf : fs.WF) {p : FPath}
    (hp : p ∈ allPaths fs) : ∀ q ∈ inits' p.dropLast, q ∈ fs.dirs :=
  (hwf.2 p hp).2

/-- The full prefix chain of a directory of a well-formed region consists
of directories. -/
theorem FS.WF.dir_chain {fs : FS} (hwf : fs.WF) {p : FPath}
    (hp : p ∈ fs.dirs) : ∀ q ∈ inits' p, q ∈ fs.dirs := by
  intro q hq
  by_cases hqp : q = p
  · subst hqp; exact hp
  · exact hwf.chain (List.mem_append_right _ hp) q (mem_inits'_dropLast hq hqp)

/-- The parent chain of a file of a well-formed region consists of
directories. -/
theorem FS.WF.file_chain {fs : FS} (hwf : fs.WF) {p : FPath}
    (hf : (fs.getF p).isSome = true) : ∀ q ∈ inits' p.dropLast, q ∈ fs.dirs :=
  hwf.chain (List.mem_append_left _ (lookupF_isSome_iff.mp hf))

theorem nodup_inits (l : List String) : l.inits.Nodup := by
  induction l with
  | nil => simp
  | cons a t ih =>
    rw [List.inits_cons]
    refine List.Nodup.cons (by simp) (ih.map ?_)
    intro x y hxy
    injection hxy

theorem nodup_inits' (p : FPath) : (inits' p).Nodup :=
  (nodup_inits p).filter _

/-- Characterization of a successful `std::fs::write`. -/
theorem writeF_ok {fs : FS} {p : FPath} {d : FileData} {fs' : FS}
    (h : fs.writeF p d = .ok fs') :
    fs'.files = (p, d) :: fs.files.filter (fun pd => decide (pd.1 ≠ p)) ∧
    fs'.getF p = some d ∧ (∀ q, q ≠ p → fs'.getF q = fs.getF q) ∧
    fs'.dirs = fs.dirs ∧ fs'.writes = fs.writes + 1 ∧
    p ≠ [] ∧ p ∉ fs.dirs ∧ (p.dropLast = [] ∨ p.dropLast ∈ fs.dirs) := by
  unfold FS.writeF at h
  split_ifs at h with h1 h2 h3
  simp only [Except.ok.injEq] at h
  subst h
  push_neg at h3
  refine ⟨rfl, ?_, ?_, rfl, rfl, h1, h2, ?_⟩
  · simp [FS.getF, lookupF]
  · intro q hq
    simp only [FS.getF, lookupF, if_neg (Ne.symm hq)]
    exact lookupF_filter_ne hq
  · by_cases hd : p.dropLast = []
    · exact Or.inl hd
    · exact Or.inr (h3 hd)

/-- A successful write preserves well-formedness. -/
theorem writeF_WF {fs : FS} {p : FPath} {d : FileData} {fs' : FS}
    (hwf : fs.WF) (h : fs.writeF p d = .ok fs') : fs'.WF := by
  obtain ⟨hfiles, _, _, hdirs, _, hnil, hnd, hpar⟩ := writeF_ok h
  have hsub : List.Sublist
      ((fs.files.filter (fun pd => decide (pd.1 ≠ p))).map Prod.fst)
      (fs.files.map Prod.fst) := (List.filter_sublist _).map _
  have hnodup0 := List.nodup_append.mp hwf.1
  have hpnotin : p ∉ (fs.files.filter (fun pd => decide (pd.1 ≠ p))).map Prod.fst := by
    intro hmem
    rcases List.mem_map.mp hmem with ⟨pd, hpd, hfst⟩
    rcases List.mem_filter.mp hpd with ⟨_, hne⟩
    rw [hfst] at hne
    simp at hne
  constructor
  · unfold allPaths
    rw [List.nodup_append]
    refine ⟨?_, ?_, ?_⟩
    · rw [hfiles, List.map_cons]
      exact List.Nodup.cons hpnotin (hnodup0.1.sublist hsub)
    · rw [hdirs]; exact hnodup0.2.1
    · rw [hfiles, List.map_cons, hdirs]
      intro x hx
      rcases List.mem_cons.mp hx with rfl | hx
      · exact hnd
      · exact hnodup0.2.2 (hsub.mem hx)
  · intro q hq
    unfold allPaths at hq
    rcases List.mem_append.mp hq with hq | hq
    · rw [hfiles, List.map_cons] at hq
      rcases List.mem_cons.mp hq with rfl | hq
      · refine ⟨hnil, ?_⟩
        intro r hr
        rcases hpar with hp0 | hp0
        · rw [hp0] at hr; simp [inits'] at hr
        · rw [hdirs]; exact hwf.dir_chain hp0 r hr
      · have := hwf.2 q (List.mem_append_left _ (hsub.mem hq))
        rw [hdirs]; exact this
    · rw [hdirs] at hq
      have := hwf.2 q (List.mem_append_right _ hq)
      rw [hdirs]; exact this

/-- Characterization of a successful `std::fs::create_dir_all`. -/
theorem create_dir_all_ok {fs : FS} {p : FPath} {fs' : FS}
    (h : fs.create_dir_all p = .ok fs') :
    fs'.files = fs.files ∧ fs'.writes = fs.writes ∧
    (∀ q, q ∈ fs'.dirs ↔ q ∈ inits' p ∨ q ∈ fs.dirs) ∧
    (∀ q ∈ inits' p, fs.getF q = none) := by
  unfold FS.create_dir_all at h
  split_ifs at h with h1
  have hnof : ∀ x ∈ inits' p, fs.getF x = none := by simpa using h1
  simp only [Except.ok.injEq] at h
  subst h
  refine ⟨rfl, rfl, ?_, hnof⟩
  intro q
  simp only [List.mem_append, List.mem_filter, decide_eq_true_eq]
  constructor
  · rintro (⟨hi, _⟩ | hd)
    · exact Or.inl hi
    · exact Or.inr hd
  · rintro (hi | hd)
    · by_cases hq : q ∈ fs.dirs
      · exact Or.inr hq
      · exact Or.inl ⟨hi, hq⟩
    · exact Or.inr hd

/-- `create_dir_all` preserves well-formedness. -/
theorem create_dir_all_WF {fs : FS} {p : FPath} {fs' : FS}
    (hwf : fs.WF) (h : fs.create_dir_all p = .ok fs') : fs'.WF := by
  unfold FS.create_dir_all at h
  split_ifs at h with h1
  have hnof : ∀ x ∈ inits' p, fs.getF x = none := by simpa using h1
  simp only [Except.ok.injEq] at h
  subst h
  have hnodup0 := List.nodup_append.mp hwf.1
  constructor
  · show (fs.files.map Prod.fst ++
      ((inits' p).filter (fun q => decide (q ∉ fs.dirs)) ++ fs.dirs)).Nodup
    rw [List.nodup_append]
    refine ⟨hnodup0.1, ?_, ?_⟩
    · rw [List.nodup_append]
      refine ⟨(nodup_inits' p).filter _, hnodup0.2.1, ?_⟩
      intro x hx hmem
      have h2 := (List.mem_filter.mp hx).2
      rw [decide_eq_true_eq] at h2
      exact h2 hmem
    · intro x hx
      simp only [List.mem_append, List.mem_filter, decide_eq_true_eq]
      rintro (⟨hi, _⟩ | hd)
      · have hx2 := hnof x hi
        have : x ∈ fs.files.map Prod.fst := hx
        rw [← lookupF_isSome_iff] at this
        rw [FS.getF] at hx2
        rw [hx2] at this
        simp at this
      · exact hnodup0.2.2 hx hd
  · intro q hq
    have hq' : q ∈ fs.files.map Prod.fst ∨
        q ∈ (inits' p).filter (fun r => decide (r ∉ fs.dirs)) ∨ q ∈ fs.dirs := by
      have hq0 : q ∈ fs.files.map Prod.fst ++
          ((inits' p).filter (fun r => decide (r ∉ fs.dirs)) ++ fs.dirs) := hq
      rcases List.mem_append.mp hq0 with h2 | h2
      · exact Or.inl h2
      · rcases List.mem_append.mp h2 with h3 | h3
        · exact Or.inr (Or.inl h3)
        · exact Or.inr (Or.inr h3)
    have hmem : q ∈ allPaths fs ∨ q ∈ inits' p := by
      rcases hq' with hq2 | hq2 | hq2
      · exact Or.inl (List.mem_append_left _ hq2)
      · exact Or.inr (List.mem_filter.mp hq2).1
      · exact Or.inl (List.mem_append_right _ hq2)
    have hgoal : ∀ r ∈ fs.dirs, r ∈ (inits' p).filter (fun x => decide (x ∉ fs.dirs)) ++ fs.dirs :=
      fun r hr => List.mem_append_right _ hr
    rcases hmem with hm | hm
    · obtain ⟨hn, hc⟩ := hwf.2 q hm
      exact ⟨hn, fun r hr => hgoal r (hc r hr)⟩
    · obtain ⟨hn, hpre⟩ := mem_inits'.mp hm
      refine ⟨hn, ?_⟩
      intro r hr
      obtain ⟨hrn, hrpre⟩ := mem_inits'.mp hr
      have hri : r ∈ inits' p := mem_inits'.mpr
        ⟨hrn, (hrpre.trans (List.dropLast_prefix q)).trans hpre⟩
      by_cases hrd : r ∈ fs.dirs
      · exact hgoal r hrd
      · exact List.mem_append_left _ (List.mem_filter.mpr ⟨hri, by simpa using hrd⟩)

theorem create_folder_files_writes {fs : FS} {p : FPath} {fs' : FS}
    (h : create_folder fs p = .ok fs') :
    fs'.files = fs.files ∧ fs'.writes = fs.writes ∧ ∀ q ∈ fs.dirs, q ∈ fs'.dirs := by
  unfold create_folder at h
  split_ifs at h with h1
  · simp only [Except.ok.injEq] at h
    subst h
    exact ⟨rfl, rfl, fun q hq => hq⟩
  · obtain ⟨hf, hw, hd, _⟩ := create_dir_all_ok h
    exact ⟨hf, hw, fun q hq => (hd q).mpr (Or.inr hq)⟩

theorem create_folder_WF {fs : FS} {p : FPath} {fs' : FS}
    (hwf : fs.WF) (h : create_folder fs p = .ok fs') : fs'.WF := by
  unfold create_folder at h
  split_ifs at h with h1
  · simp only [Except.ok.injEq] at h
    subst h
    exact hwf
  · exact create_dir_all_WF hwf h

theorem save_ok_parts {T : String} {P : FPath} {fs fs' : FS}
    (h : save_string_to_file T P fs = .ok fs') :
    ∃ fs1, create_folder fs P.dropLast = .ok fs1 ∧ fs1.writeF P (.text T) = .ok fs' := by
  unfold save_string_to_file create_folder_for_file at h
  cases hc : create_folder fs P.dropLast with
  | error e =>
    rw [hc] at h
    simp [Bind.bind, Except.bind] at h
  | ok fs1 =>
    rw [hc] at h
    refine ⟨fs1, rfl, ?_⟩
    simpa [Bind.bind, Except.bind] using h

/-- Everything a successful `save_string_to_file` guarantees on a
well-formed region: the file holds the text, nothing else changed, one
write happened, directories only grew, the parent chain of the file
exists, and the region stays well-formed. -/
theorem save_char {T : String} {P : FPath} {fs fs' : FS}
    (hwf : fs.WF) (h : save_string_to_file T P fs = .ok fs') :
    fs'.getF P = some (.text T) ∧ (∀ q, q ≠ P → fs'.getF q = fs.getF q) ∧
    fs'.writes = fs.writes + 1 ∧ (∀ q ∈ fs.dirs, q ∈ fs'.dirs) ∧
    (∀ q ∈ inits' P.dropLast, q ∈ fs'.dirs) ∧ fs'.WF := by
  obtain ⟨fs1, hc, hw⟩ := save_ok_parts h
  obtain ⟨hcf, hcw, hcd⟩ := create_folder_files_writes hc
  have hwf1 : fs1.WF := create_folder_WF hwf hc
  obtain ⟨_, hget, hother, hdirs, hwrites, hnil, hnd, hpar⟩ := writeF_ok hw
  have hget1 : ∀ q, fs1.getF q = fs.getF q := by
    intro q
    unfold FS.getF
    rw [hcf]
  refine ⟨hget, ?_, ?_, ?_, ?_, writeF_WF hwf1 hw⟩
  · intro q hq
    rw [hother q hq, hget1]
  · rw [hwrites, hcw]
  · intro q hq
    rw [hdirs]
    exact hcd q hq
  · intro q hq
    rw [hdirs]
    rcases hpar with hp0 | hp0
    · rw [hp0] at hq
      simp [inits'] at hq
    · exact hwf1.dir_chain hp0 q hq

/-- On a well-formed region, saving to the path of an existing file always
succeeds (its parent chain already exists). -/
theorem save_on_file_ok {T : String} {P : FPath} {fs : FS}
    (hwf : fs.WF) (hf : (fs.getF P).isSome = true) :
    ∃ fs', save_string_to_file T P fs = .ok fs' := by
  have hmem : P ∈ allPaths fs := List.mem_append_left _ (lookupF_isSome_iff.mp hf)
  have hPnil : P ≠ [] := hwf.ne_nil_of_mem hmem
  have hchain := hwf.file_chain hf
  have hnd : P ∉ fs.dirs := hwf.file_not_dir hf
  have hfold : ∃ fs1, create_folder fs P.dropLast = .ok fs1 ∧
      fs1.files = fs.files ∧ fs1.dirs = fs.dirs := by
    by_cases hdl : P.dropLast = []
    · rw [hdl]
      have hex : fs.existsP [] = false := by
        unfold FS.existsP FS.is_file FS.is_dir
        have h1 : fs.getF [] = none := by
          cases hg : fs.getF [] with
          | none => rfl
          | some d =>
            have : ([] : FPath) ∈ allPaths fs :=
              List.mem_append_left _ (lookupF_isSome_iff.mp
                (by show (fs.getF []).isSome = true; rw [hg]; rfl))
            exact absurd rfl (hwf.ne_nil_of_mem this)
        have h2 : ([] : FPath) ∉ fs.dirs := by
          intro hd2
          exact absurd rfl (hwf.ne_nil_of_mem (List.mem_append_right _ hd2))
        rw [h1]
        simp [h2]
      unfold create_folder
      rw [hex]
      simp only [Bool.false_eq_true, if_false]
      unfold FS.create_dir_all
      have hinits : inits' ([] : FPath) = [] := rfl
      rw [hinits]
      exact ⟨_, rfl, rfl, by simp⟩
    · have hself : P.dropLast ∈ fs.dirs :=
        hchain _ (self_mem_inits' hdl)
      have hex : fs.existsP P.dropLast = true := by
        unfold FS.existsP FS.is_dir
        simp [hself]
      unfold create_folder
      rw [hex]
      simp only [if_true]
      exact ⟨fs, rfl, rfl, rfl⟩
  obtain ⟨fs1, hc, hf1, hd1⟩ := hfold
  have hwok : ∃ fs', fs1.writeF P (.text T) = .ok fs' := by
    unfold FS.writeF
    rw [hd1]
    rw [if_neg hPnil, if_neg hnd]
    have hcond : ¬(P.dropLast ≠ [] ∧ P.dropLast ∉ fs.dirs) := by
      by_cases hdl : P.dropLast = []
      · intro hcc; exact hcc.1 hdl
      · intro hcc; exact hcc.2 (hchain _ (self_mem_inits' hdl))
    rw [if_neg hcond]
    exact ⟨_, rfl⟩
  obtain ⟨fs', hw⟩ := hwok
  refine ⟨fs', ?_⟩
  unfold save_string_to_file create_folder_for_file
  rw [hc]
  simpa [Bind.bind, Except.bind] using hw

/-- Claim C8 — save/load round trip: for all text `T` and writable path
`P` (a path where the save succeeds) on a well-formed region, saving and
then loading returns exactly `T`, and every missing parent folder of `P`
has been created by the save. -/
theorem save_load_round_trip (T : String) (P : FPath) (fs fs' : FS)
    (hwf : fs.WF) (h : save_string_to_file T P fs = .ok fs') :
    load_file_as_string fs' P = .ok T ∧ ∀ q ∈ inits' P.dropLast, q ∈ fs'.dirs := by
  obtain ⟨hget, _, _, _, hchain, _⟩ := save_char hwf h
  refine ⟨?_, hchain⟩
  unfold load_file_as_string
  rw [hget]

/-- Witness for `save_load_round_trip`: saving into a missing folder and
loading back returns the text, and the parent folder was created. -/
theorem save_load_round_trip_witness :
    load_file_as_string
        ⟨[(["folder", "f.txt"], .text "hi")], [["folder"]], 1⟩ ["folder", "f.txt"] =
      .ok "hi" ∧ ["folder"] ∈ (⟨[(["folder", "f.txt"], .text "hi")], [["folder"]], 1⟩ : FS).dirs := by
  have h := save_load_round_trip "hi" ["folder", "f.txt"] ⟨[], [], 0⟩
    ⟨[(["folder", "f.txt"], .text "hi")], [["folder"]], 1⟩ (by decide) rfl
  exact ⟨h.1, h.2 ["folder"] (by decide)⟩

/-- Source `replace_str_in_file`: load the file, and if and only if the
content contains `old_string`, replace all occurrences and rewrite the
whole file; otherwise do nothing. -/
def replace_str_in_file (fs : FS) (p : FPath) (old_string new_string : String) :
    Except String FS := do
  let content ← load_file_as_string fs p
  if strContains content old_string then
    save_string_to_file (strReplace content old_string new_string) p fs
  else
    .ok fs

/-- Characterization of `replace_str_in_file` on a readable text file of a
well-formed region: with a match it rewrites exactly this file (one write)
and succeeds; without a match it returns the region untouched. -/
theorem replace_str_in_file_char {fs : FS} {p : FPath} {o n c : String}
    (hwf : fs.WF) (hc : fs.getF p = some (.text c)) :
    (strContains c o = true →
      ∃ fs', replace_str_in_file fs p o n = .ok fs' ∧
        fs'.getF p = some (.text (strReplace c o n)) ∧
        (∀ q, q ≠ p → fs'.getF q = fs.getF q) ∧
        fs'.writes = fs.writes + 1 ∧ (∀ q ∈ fs.dirs, q ∈ fs'.dirs) ∧ fs'.WF) ∧
    (strContains c o = false → replace_str_in_file fs p o n = .ok fs) := by
  have hl : load_file_as_string fs p = .ok c := by
    unfold load_file_as_string
    rw [hc]
  have hred : replace_str_in_file fs p o n =
      (if strContains c o then save_string_to_file (strReplace c o n) p fs
       else .ok fs) := by
    unfold replace_str_in_file
    rw [hl]
    rfl
  constructor
  · intro hco
    rw [hred, if_pos hco]
    have hsome : (fs.getF p).isSome = true := by rw [hc]; rfl
    obtain ⟨fs', hs⟩ := save_on_file_ok (T := strReplace c o n) hwf hsome
    obtain ⟨hget, hother, hwr, hdirs, _, hwf'⟩ := save_char hwf hs
    exact ⟨fs', hs, hget, hother, hwr, hdirs, hwf'⟩
  · intro hco
    rw [hred, if_neg (by rw [hco]; exact Bool.false_ne_true)]

/-- Claim C4 — single-file replace semantics: on a readable text file the
operation rewrites the file (with all non-overlapping occurrences of the
literal, case-sensitive substring `o` replaced by `n`, one write) iff `o`
occurs in the content; when `o` does not occur the region is returned
byte-identical with no write.  The spec's example replacement holds. -/
theorem replace_str_in_file_spec (fs : FS) (p : FPath) (o n c : String)
    (hwf : fs.WF) (hc : fs.getF p = some (.text c)) :
    ((strContains c o = true →
        ∃ fs', replace_str_in_file fs p o n = .ok fs' ∧
          fs'.getF p = some (.text (strReplace c o n)) ∧
          (∀ q, q ≠ p → fs'.getF q = fs.getF q) ∧
          fs'.writes = fs.writes + 1) ∧
      (strContains c o = false → replace_str_in_file fs p o n = .ok fs)) ∧
    strReplace "Hello, world, hello, Hello!" "Hello" "Goodbye" =
      "Goodbye, world, hello, Goodbye!" := by
  obtain ⟨h1, h2⟩ := replace_str_in_file_char (n := n) hwf hc
  refine ⟨⟨?_, h2⟩, by decide⟩
  intro hco
  obtain ⟨fs', hr, hg, hother, hwr, _, _⟩ := h1 hco
  exact ⟨fs', hr, hg, hother, hwr⟩

/-- Witness for `replace_str_in_file_spec`: the spec's example, run on a
concrete one-file region. -/
theorem replace_str_in_file_spec_witness :
    ∃ fs', replace_str_in_file
        ⟨[(["a.txt"], .text "Hello, world, hello, Hello!")], [], 0⟩
        ["a.txt"] "Hello" "Goodbye" = .ok fs' ∧
      fs'.getF ["a.txt"] = some (.text "Goodbye, world, hello, Goodbye!") := by
  obtain ⟨⟨h1, _⟩, hex⟩ := replace_str_in_file_spec
    ⟨[(["a.txt"], .text "Hello, world, hello, Hello!")], [], 0⟩
    ["a.txt"] "Hello" "Goodbye" "Hello, world, hello, Hello!" (by decide) rfl
  obtain ⟨fs', hr, hg, _, _⟩ := h1 (by decide)
  exact ⟨fs', hr, by rw [hg, hex]⟩

/-- Claim C9 — empty-pattern edge case: the empty substring occurs in
every content, so `replace_str_in_file` with an empty `old` always takes
the rewrite branch (the file is written, never left untouched), and the
new content is `n` inserted before every character and once at the end. -/
theorem replace_str_in_file_empty_pattern (fs : FS) (p : FPath) (n c : String)
    (hwf : fs.WF) (hc : fs.getF p = some (.text c)) :
    strContains c "" = true ∧
    ∃ fs', replace_str_in_file fs p "" n = .ok fs' ∧
      fs'.getF p = some (.text ⟨n.data ++ c.data.flatMap (fun ch => ch :: n.data)⟩) ∧
      fs'.writes = fs.writes + 1 := by
  have hemp : strContains c "" = true := by
    unfold strContains listContains
    apply List.any_eq_true.mpr
    refine ⟨0, by simp, ?_⟩
    rw [show ("" : String).data = [] from rfl]
    simp [List.isPrefixOf_iff_prefix]
  have hrep : strReplace c "" n = ⟨n.data ++ c.data.flatMap (fun ch => ch :: n.data)⟩ := by
    unfold strReplace listReplace
    rw [if_pos rfl]
  obtain ⟨h1, _⟩ := replace_str_in_file_char (n := n) hwf hc
  obtain ⟨fs', hr, hg, _, hwr, _, _⟩ := h1 hemp
  exact ⟨hemp, fs', hr, by rw [hg, hrep], hwr⟩

/-- Witness for `replace_str_in_file_empty_pattern` on a concrete file. -/
theorem replace_str_in_file_empty_pattern_witness :
    ∃ fs', replace_str_in_file ⟨[(["a.txt"], .text "ab")], [], 0⟩ ["a.txt"] "" "-" = .ok fs' ∧
      fs'.getF ["a.txt"] = some (.text "-a-b-") ∧ fs'.writes = 1 := by
  obtain ⟨_, fs', hr, hg, hw⟩ := replace_str_in_file_empty_pattern
    ⟨[(["a.txt"], .text "ab")], [], 0⟩ ["a.txt"] "-" "ab" (by decide) rfl
  refine ⟨fs', hr, ?_, hw⟩
  rw [hg]
  rfl

/-- Source `list_folder_contents`: panic when the path is not a folder,
otherwise the immediate children (files and subfolders, not expanded) of
the folder, sorted ascending (`entries.sort()` on the full paths returned
by `read_dir`). -/
def list_folder_contents (fs : FS) (p : FPath) : Except String (List FPath) :=
  if fs.is_dir p then
    .ok (List.insertionSort pathR
      ((allPaths fs).filter (fun q => decide (q.dropLast = p ∧ q ≠ []))))
  else .error "the provided path is not a folder"

theorem eq_parent_iff {q p : FPath} : (q.dropLast = p ∧ q ≠ []) ↔ ∃ s, q = p ++ [s] := by
  constructor
  · rintro ⟨h1, h2⟩
    refine ⟨q.getLast h2, ?_⟩
    rw [← h1]
    exact (List.dropLast_append_getLast h2).symm
  · rintro ⟨s, rfl⟩
    exact ⟨List.dropLast_concat, by simp⟩

/-- Spec example layout: a root folder `r` containing `file1.txt`,
`file2.txt` and `subfolder/file3.txt`. -/
def exFS : FS :=
  { files := [(["r", "file1.txt"], .text "Content 1"),
              (["r", "file2.txt"], .text "Content 2"),
              (["r", "subfolder", "file3.txt"], .text "Content 3")],
    dirs := [["r"], ["r", "subfolder"]], writes := 0 }

/-- Claim C6 — one-level listing: on a directory the result is exactly the
immediate children (paths of the form `p ++ [s]` present in the region,
files and subfolders alike, subfolders not expanded), sorted ascending by
path order; on a non-directory it fails fatally.  On the example layout it
returns exactly `[file1.txt, file2.txt, subfolder]`. -/
theorem list_folder_contents_spec (fs : FS) (p : FPath) :
    (fs.is_dir p = true →
      ∃ l, list_folder_contents fs p = .ok l ∧
        (∀ q, q ∈ l ↔ ((∃ s, q = p ++ [s]) ∧ q ∈ allPaths fs)) ∧
        l.Sorted pathR) ∧
    (fs.is_dir p = false →
      list_folder_contents fs p = .error "the provided path is not a folder") ∧
    list_folder_contents exFS ["r"] =
      .ok [["r", "file1.txt"], ["r", "file2.txt"], ["r", "subfolder"]] := by
  refine ⟨?_, ?_, rfl⟩
  · intro hd
    refine ⟨_, by unfold list_folder_contents; rw [hd]; rfl, ?_, ?_⟩
    · intro q
      rw [List.mem_insertionSort, List.mem_filter]
      constructor
      · rintro ⟨hmem, hq⟩
        rw [decide_eq_true_eq] at hq
        exact ⟨eq_parent_iff.mp hq, hmem⟩
      · rintro ⟨hq, hmem⟩
        exact ⟨hmem, by rw [decide_eq_true_eq]; exact eq_parent_iff.mpr hq⟩
    · exact List.sorted_insertionSort pathR _
  · intro hd
    unfold list_folder_contents
    rw [hd]
    rfl

/-- Witness for `list_folder_contents_spec` on the example layout. -/
theorem list_folder_contents_spec_witness :
    ∃ l, list_folder_contents exFS ["r"] = .ok l ∧ ["r", "file1.txt"] ∈ l := by
  obtain ⟨h1, _, _⟩ := list_folder_contents_spec exFS ["r"]
  obtain ⟨l, hl, hmem, _⟩ := h1 (by decide)
  exact ⟨l, hl, (hmem _).mpr ⟨⟨"file1.txt", rfl⟩, by decide⟩⟩

/-- Source `replace_str_in_files` loop: for every walker entry that is a
regular file, apply the single-file replacement inside
`panic::catch_unwind`; a caught panic appends a diagnostic naming the
failed path to the stderr log and the loop continues. -/
def replaceGo (old_string new_string : String) : List FPath → FS → FS × List FPath
  | [], fs => (fs, [])
  | p :: rest, fs =>
    if fs.is_file p then
      match replace_str_in_file fs p old_string new_string with
      | .ok fs1 => replaceGo old_string new_string rest fs1
      | .error _ =>
        let r := replaceGo old_string new_string rest fs
        (r.1, p :: r.2)
    else replaceGo old_string new_string rest fs

/-- Source `replace_str_in_files`: walk the tree rooted at `path` and
apply the fault-tolerant per-file replacement to every regular file
discovered; returns the final region and the stderr diagnostics (the
failed paths, in traversal order). -/
def replace_str_in_files (fs : FS) (path : FPath) (old_string new_string : String) :
    FS × List FPath :=
  replaceGo old_string new_string (walk fs path) fs

/-- Master induction lemma for the multi-file replace loop over any
duplicate-free entry list. -/
theorem replaceGo_char (o n : String) (L : List FPath) (fs : FS)
    (hwf : fs.WF) (hnd : L.Nodup) :
    (∀ q c, fs.getF q = some (.text c) → q ∈ L →
      (replaceGo o n L fs).1.getF q =
        some (.text (if strContains c o then strReplace c o n else c))) ∧
    (∀ q, q ∉ L → (replaceGo o n L fs).1.getF q = fs.getF q) ∧
    (∀ q, fs.getF q = some .unreadable →
      (replaceGo o n L fs).1.getF q = some .unreadable) ∧
    (∀ q, fs.getF q = none → (replaceGo o n L fs).1.getF q = none) ∧
    (replaceGo o n L fs).2 =
      L.filter (fun q => decide (fs.getF q = some .unreadable)) ∧
    (replaceGo o n L fs).1.WF := by
  induction L generalizing fs with
  | nil =>
    exact ⟨fun q c _ hq => absurd hq (List.not_mem_nil q),
      fun q _ => rfl, fun q hq => hq, fun q hq => hq, rfl, hwf⟩
  | cons p rest ih =>
    have hpnotrest : p ∉ rest → True := fun _ => trivial
    obtain ⟨hndp, hndrest⟩ := List.nodup_cons.mp hnd
    by_cases hf : fs.is_file p = true
    · cases hg : fs.getF p with
      | none => rw [FS.is_file, hg] at hf; simp at hf
      | some d =>
        cases d with
        | text c =>
          obtain ⟨h1, h2⟩ := replace_str_in_file_char (o := o) (n := n) hwf hg
          by_cases hco : strContains c o = true
          · obtain ⟨fs1, hr, hget, hother, hwr, hdirs, hwf1⟩ := h1 hco
            have hred : replaceGo o n (p :: rest) fs = replaceGo o n rest fs1 := by
              simp only [replaceGo, hf, if_true, hr]
            obtain ⟨ia, ib, ic, id', ie, iwf⟩ := ih fs1 hwf1 hndrest
            rw [hred]
            refine ⟨?_, ?_, ?_, ?_, ?_, iwf⟩
            · intro q c' hq hqmem
              rcases List.mem_cons.mp hqmem with rfl | hqmem
              · rw [hg] at hq
                injection hq with hq
                injection hq with hq
                subst hq
                rw [ib q hndp, hget, if_pos hco]
              · have hqp : q ≠ p := fun hh => hndp (hh ▸ hqmem)
                exact ia q c' (by rw [hother q hqp]; exact hq) hqmem
            · intro q hq
              have hqp : q ≠ p := fun hh => hq (hh ▸ List.mem_cons_self p rest)
              have hqrest : q ∉ rest := fun hh => hq (List.mem_cons_of_mem _ hh)
              rw [ib q hqrest, hother q hqp]
            · intro q hq
              have hqp : q ≠ p := by
                intro hh; subst hh; rw [hg] at hq; exact FileData.noConfusion (Option.some.inj hq)
              exact ic q (by rw [hother q hqp]; exact hq)
            · intro q hq
              have hqp : q ≠ p := by
                intro hh; subst hh; rw [hg] at hq; exact Option.noConfusion hq
              exact id' q (by rw [hother q hqp]; exact hq)
            · rw [ie]
              have hpred : (decide (fs.getF p = some .unreadable)) = false := by
                rw [hg]; simp
              rw [List.filter_cons, hpred]
              simp only [Bool.false_eq_true, if_false]
              apply List.filter_congr
              intro a ha
              have hap : a ≠ p := fun hh => hndp (hh ▸ ha)
              rw [hother a hap]
          · have hco' : strContains c o = false := by
              cases hcc : strContains c o with
              | true => exact absurd hcc hco
              | false => rfl
            have hrok := h2 hco'
            have hred : replaceGo o n (p :: rest) fs = replaceGo o n rest fs := by
              simp only [replaceGo, hf, if_true, hrok]
            obtain ⟨ia, ib, ic, id', ie, iwf⟩ := ih fs hwf hndrest
            rw [hred]
            refine ⟨?_, ?_, ic, id', ?_, iwf⟩
            · intro q c' hq hqmem
              rcases List.mem_cons.mp hqmem with rfl | hqmem
              · rw [hg] at hq
                injection hq with hq
                injection hq with hq
                subst hq
                rw [ib q hndp, hg, hco', if_neg (by simp)]
              · exact ia q c' hq hqmem
            · intro q hq
              exact ib q (fun hh => hq (List.mem_cons_of_mem _ hh))
            · have hpred : (decide (fs.getF p = some .unreadable)) = false := by
                rw [hg]; simp
              rw [ie, List.filter_cons, hpred]
              simp only [Bool.false_eq_true, if_false]
        | unreadable =>
          have hr : replace_str_in_file fs p o n = .error "failed to read file" := by
            unfold replace_str_in_file load_file_as_string
            rw [hg]
            rfl
          have hred : replaceGo o n (p :: rest) fs =
              ((replaceGo o n rest fs).1, p :: (replaceGo o n rest fs).2) := by
            simp only [replaceGo, hf, if_true, hr]
          obtain ⟨ia, ib, ic, id', ie, iwf⟩ := ih fs hwf hndrest
          rw [hred]
          refine ⟨?_, ?_, ic, id', ?_, iwf⟩
          · intro q c' hq hqmem
            rcases List.mem_cons.mp hqmem with rfl | hqmem
            · rw [hg] at hq
              exact absurd (Option.some.inj hq) (by intro hh; exact FileData.noConfusion hh)
            · exact ia q c' hq hqmem
          · intro q hq
            exact ib q (fun hh => hq (List.mem_cons_of_mem _ hh))
          · have hpred : (decide (fs.getF p = some .unreadable)) = true := by
              rw [hg]; simp
            rw [List.filter_cons, hpred, if_pos rfl, ie]
    · have hg : fs.getF p = none := by
        rw [FS.is_file] at hf
        cases hgg : fs.getF p with
        | none => rfl
        | some d => rw [hgg] at hf; simp at hf
      have hred : replaceGo o n (p :: rest) fs = replaceGo o n rest fs := by
        simp only [replaceGo, hf]
        rfl
      obtain ⟨ia, ib, ic, id', ie, iwf⟩ := ih fs hwf hndrest
      rw [hred]
      refine ⟨?_, ?_, ic, id', ?_, iwf⟩
      · intro q c' hq hqmem
        rcases List.mem_cons.mp hqmem with rfl | hqmem
        · rw [hg] at hq; exact Option.noConfusion hq
        · exact ia q c' hq hqmem
      · intro q hq
        exact ib q (fun hh => hq (List.mem_cons_of_mem _ hh))
      · have hpred : (decide (fs.getF p = some .unreadable)) = false := by
          rw [hg]; simp
        rw [ie, List.filter_cons, hpred]
        simp only [Bool.false_eq_true, if_false]

/-- Membership in the walker's enumeration: exactly the entries of the
region whose path extends the root. -/
theorem mem_walk {fs : FS} {root p : FPath} :
    p ∈ walk fs root ↔ p ∈ allPaths fs ∧ root <+: p := by
  unfold walk
  rw [List.mem_insertionSort, List.mem_filter]
  constructor
  · rintro ⟨hm, hp⟩
    exact ⟨hm, List.isPrefixOf_iff_prefix.mp hp⟩
  · rintro ⟨hm, hp⟩
    exact ⟨hm, List.isPrefixOf_iff_prefix.mpr hp⟩

/-- The walker's enumeration of a well-formed region has no duplicates. -/
theorem walk_nodup {fs : FS} (hwf : fs.WF) (root : FPath) : (walk fs root).Nodup :=
  ((List.perm_insertionSort pathR _).symm).nodup (hwf.1.filter _)

/-- Claim C5 — multi-file replace fault tolerance: the traversal reaches
every regular file under the root; each readable text file ends up with
the single-file replacement applied (when the pattern occurs) or unchanged
(when it does not); each unreadable file is caught independently — it is
left unchanged, a diagnostic naming exactly that path is emitted, and the
traversal continues, so every other matching file is still updated; files
outside the root are untouched; the operation itself always returns
(total function, never an `Except` error). -/
theorem replace_str_in_files_spec (fs : FS) (root : FPath) (o n : String)
    (hwf : fs.WF) :
    (∀ p c, fs.getF p = some (.text c) → root <+: p →
      (replace_str_in_files fs root o n).1.getF p =
        some (.text (if strContains c o then strReplace c o n else c))) ∧
    (∀ p, fs.getF p = some .unreadable → root <+: p →
      (replace_str_in_files fs root o n).1.getF p = some .unreadable ∧
        p ∈ (replace_str_in_files fs root o n).2) ∧
    (∀ p, ¬ root <+: p →
      (replace_str_in_files fs root o n).1.getF p = fs.getF p) ∧
    (∀ p ∈ (replace_str_in_files fs root o n).2,
      fs.getF p = some .unreadable ∧ root <+: p) := by
  obtain ⟨ha, hb, hc, hd, he, _⟩ :=
    replaceGo_char o n (walk fs root) fs hwf (walk_nodup hwf root)
  refine ⟨?_, ?_, ?_, ?_⟩
  · intro p c hp hroot
    have hmem : p ∈ walk fs root := mem_walk.mpr
      ⟨List.mem_append_left _ (lookupF_isSome_iff.mp (by
        unfold FS.getF at hp; rw [hp]; rfl)), hroot⟩
    exact ha p c hp hmem
  · intro p hp hroot
    have hmem : p ∈ walk fs root := mem_walk.mpr
      ⟨List.mem_append_left _ (lookupF_isSome_iff.mp (by
        unfold FS.getF at hp; rw [hp]; rfl)), hroot⟩
    refine ⟨hc p hp, ?_⟩
    show p ∈ (replaceGo o n (walk fs root) fs).2
    rw [he]
    exact List.mem_filter.mpr ⟨hmem, by rw [hp]; simp⟩
  · intro p hroot
    have hmem : p ∉ walk fs root := fun hm => hroot (mem_walk.mp hm).2
    exact hb p hmem
  · intro p hp
    have hp' : p ∈ (replaceGo o n (walk fs root) fs).2 := hp
    rw [he] at hp'
    obtain ⟨hmem, hpred⟩ := List.mem_filter.mp hp'
    rw [decide_eq_true_eq] at hpred
    exact ⟨hpred, (mem_walk.mp hmem).2⟩

/-- Example region for the fault-tolerance witness: one matching readable
file, one unreadable file, one nested matching file. -/
def fsC5 : FS :=
  { files := [(["r", "good.txt"], .text "foo x"),
              (["r", "bad.txt"], .unreadable),
              (["r", "sub", "inner.txt"], .text "foo y")],
    dirs := [["r"], ["r", "sub"]], writes := 0 }

/-- Witness for `replace_str_in_files_spec`: the unreadable file is logged
and left alone while both readable files (including the nested one) are
still updated. -/
theorem replace_str_in_files_spec_witness :
    (replace_str_in_files fsC5 ["r"] "foo" "bar").1.getF ["r", "good.txt"] =
      some (.text "bar x") ∧
    (replace_str_in_files fsC5 ["r"] "foo" "bar").1.getF ["r", "sub", "inner.txt"] =
      some (.text "bar y") ∧
    ["r", "bad.txt"] ∈ (replace_str_in_files fsC5 ["r"] "foo" "bar").2 := by
  obtain ⟨ha, hb, _, _⟩ := replace_str_in_files_spec fsC5 ["r"] "foo" "bar" (by decide)
  refine ⟨?_, ?_, (hb ["r", "bad.txt"] rfl ⟨["bad.txt"], rfl⟩).2⟩
  · rw [ha ["r", "good.txt"] "foo x" rfl ⟨["good.txt"], rfl⟩]
    rfl
  · rw [ha ["r", "sub", "inner.txt"] "foo y" rfl ⟨["sub", "inner.txt"], rfl⟩]
    rfl

/-- Source `copy_file`, embedded over the two regions of `copy_folder`:
`rel` is the entry's path relative to the source root (what
`entry_path.strip_prefix(from)` yields), read in the source tree `src` and
written at the same relative path in the destination tree `dst` (the join
`to.join(rel)`).  First ensure the destination's parent folder exists,
then `std::fs::copy` the bytes; the copy fails when the source is not a
readable regular file or the destination cannot be written (the fatal
panic is the `some` error component; the state component keeps whatever
the OS already did, since a panic does not undo directory creation). -/
def copy_file (src : FS) (rel : FPath) (dst : FS) : FS × Option String :=
  match create_folder_for_file dst rel with
  | .error e => (dst, some e)
  | .ok dst1 =>
    match src.getF rel with
    | some (.text c) =>
      match dst1.writeF rel (.text c) with
      | .ok dst2 => (dst2, none)
      | .error e => (dst1, some e)
    | _ => (dst1, some "failed to copy file")

/-- The walker over the whole source tree: the root itself (relative path
`[]`, yielded first by `WalkDir`) followed by every entry of the region,
ancestors before descendants. -/
def walkAll (src : FS) : List FPath := [] :: walk src []

/-- Loop of source `copy_folder` over the walker entries: directories are
skipped (`entry_path.is_file()`), files are copied; the first panic aborts
the whole loop, keeping the destination state reached so far. -/
def copyGo (src : FS) : List FPath → FS → FS × Option String
  | [], dst => (dst, none)
  | p :: rest, dst =>
    if src.is_file p then
      match copy_file src p dst with
      | (dst1, none) => copyGo src rest dst1
      | (dst1, some e) => (dst1, some e)
    else copyGo src rest dst

/-- Source `copy_folder` over the source region (`none` when `from` does
not exist: `WalkDir::new(from)` then yields one `Err` entry, which
`filter_map(Result::ok)` discards, so the loop body never runs and the
function returns normally) and the destination region under `to`. -/
def copy_folder : Option FS → FS → FS × Option String
  | none, dst => (dst, none)
  | some src, dst => copyGo src (walkAll src) dst

theorem create_folder_dirs_sub {fs : FS} {p : FPath} {fs' : FS}
    (h : create_folder fs p = .ok fs') :
    ∀ q ∈ fs'.dirs, q ∈ fs.dirs ∨ q ∈ inits' p := by
  unfold create_folder at h
  split_ifs at h with h1
  · simp only [Except.ok.injEq] at h
    subst h
    exact fun q hq => Or.inl hq
  · obtain ⟨_, _, hd, _⟩ := create_dir_all_ok h
    intro q hq
    exact ((hd q).mp hq).elim Or.inr Or.inl

/-- Characterization of a successful file copy into a well-formed
destination region. -/
theorem copy_file_none {src : FS} {rel : FPath} {dst dst2 : FS} (hwf : dst.WF)
    (h : copy_file src rel dst = (dst2, none)) :
    ∃ c, src.getF rel = some (.text c) ∧
      dst2.getF rel = some (.text c) ∧
      (∀ q, q ≠ rel → dst2.getF q = dst.getF q) ∧
      (∀ q ∈ dst.dirs, q ∈ dst2.dirs) ∧
      (∀ q ∈ dst2.dirs, q ∈ dst.dirs ∨ q ∈ inits' rel.dropLast) ∧
      (∀ q ∈ inits' rel.dropLast, q ∈ dst2.dirs) ∧
      dst2.WF := by
  unfold copy_file at h
  cases hc : create_folder_for_file dst rel with
  | error e =>
    simp only [hc] at h
    exact absurd (congrArg Prod.snd h) (by simp)
  | ok dst1 =>
    simp only [hc] at h
    unfold create_folder_for_file at hc
    cases hg : src.getF rel with
    | none =>
      simp only [hg] at h
      exact absurd (congrArg Prod.snd h) (by simp)
    | some d =>
      cases d with
      | unreadable =>
        simp only [hg] at h
        exact absurd (congrArg Prod.snd h) (by simp)
      | text c =>
        simp only [hg] at h
        cases hw : dst1.writeF rel (.text c) with
        | error e =>
          simp only [hw] at h
          exact absurd (congrArg Prod.snd h) (by simp)
        | ok dstw =>
          simp only [hw, Prod.mk.injEq] at h
          obtain ⟨rfl, -⟩ := h
          obtain ⟨hcf, hcw, hcd⟩ := create_folder_files_writes hc
          have hwf1 : dst1.WF := create_folder_WF hwf hc
          obtain ⟨_, hget, hother, hdirs, _, _, _, hpar⟩ := writeF_ok hw
          have hget1 : ∀ q, dst1.getF q = dst.getF q := by
            intro q
            unfold FS.getF
            rw [hcf]
          refine ⟨c, rfl, hget, ?_, ?_, ?_, ?_, writeF_WF hwf1 hw⟩
          · intro q hq
            rw [hother q hq, hget1]
          · intro q hq
            rw [hdirs]
            exact hcd q hq
          · intro q hq
            rw [hdirs] at hq
            exact create_folder_dirs_sub hc q hq
          · intro q hq
            rw [hdirs]
            rcases hpar with hp0 | hp0
            · rw [hp0] at hq
              simp [inits'] at hq
            · exact hwf1.dir_chain hp0 q hq

/-- A failing file copy never changes the destination's files (only parent
directories may have been created before the panic). -/
theorem copy_file_err_files {src : FS} {rel : FPath} {dst dst1 : FS} {e : String}
    (h : copy_file src rel dst = (dst1, some e)) : dst1.files = dst.files := by
  unfold copy_file at h
  cases hc : create_folder_for_file dst rel with
  | error e2 =>
    simp only [hc, Prod.mk.injEq] at h
    rw [← h.1]
  | ok dstc =>
    simp only [hc] at h
    obtain ⟨hcf, _, _⟩ := create_folder_files_writes hc
    cases hg : src.getF rel with
    | none =>
      simp only [hg, Prod.mk.injEq] at h
      rw [← h.1, hcf]
    | some d =>
      cases d with
      | unreadable =>
        simp only [hg, Prod.mk.injEq] at h
        rw [← h.1, hcf]
      | text c =>
        simp only [hg] at h
        cases hw : dstc.writeF rel (.text c) with
        | ok dstw =>
          simp only [hw] at h
          exact absurd (congrArg Prod.snd h) (by simp)
        | error e3 =>
          simp only [hw, Prod.mk.injEq] at h
          rw [← h.1, hcf]

/-- Master induction lemma for the copy loop over a duplicate-free entry
list: when the whole loop succeeds, every readable source file of the list
has been copied to its mirrored destination path, destination entries at
paths without a source file are untouched, and the only directories
created are ancestors of copied files' parents. -/
theorem copyGo_char (src : FS) (L : List FPath) (dst : FS)
    (hdst : dst.WF) (hnd : L.Nodup) {dst' : FS}
    (h : copyGo src L dst = (dst', none)) :
    (∀ rel c, rel ∈ L → src.getF rel = some (.text c) →
      dst'.getF rel = some (.text c)) ∧
    (∀ q, src.getF q = none → dst'.getF q = dst.getF q) ∧
    (∀ q, q ∉ L → dst'.getF q = dst.getF q) ∧
    (∀ q ∈ dst.dirs, q ∈ dst'.dirs) ∧
    (∀ q ∈ dst'.dirs, q ∈ dst.dirs ∨
      ∃ rel ∈ L, (src.getF rel).isSome = true ∧ q ∈ inits' rel.dropLast) ∧
    (∀ rel c, rel ∈ L → src.getF rel = some (.text c) →
      ∀ q ∈ inits' rel.dropLast, q ∈ dst'.dirs) ∧
    dst'.WF := by
  induction L generalizing dst with
  | nil =>
    have hd : dst = dst' := congrArg Prod.fst h
    subst hd
    exact ⟨fun rel c hrel _ => absurd hrel (List.not_mem_nil _),
      fun q _ => rfl, fun q _ => rfl, fun q hq => hq,
      fun q hq => Or.inl hq,
      fun rel c hrel _ => absurd hrel (List.not_mem_nil _), hdst⟩
  | cons p rest ih =>
    obtain ⟨hndp, hndrest⟩ := List.nodup_cons.mp hnd
    by_cases hf : src.is_file p = true
    · cases hcf : copy_file src p dst with
      | mk dst1 r =>
        cases r with
        | some e =>
          have hred : copyGo src (p :: rest) dst = (dst1, some e) := by
            simp only [copyGo, hf, if_true, hcf]
          rw [hred] at h
          exact absurd (congrArg Prod.snd h) (by simp)
        | none =>
          have hred : copyGo src (p :: rest) dst = copyGo src rest dst1 := by
            simp only [copyGo, hf, if_true, hcf]
          rw [hred] at h
          obtain ⟨c0, hg0, hget, hother, hmono, hsub2, hchain, hwf1⟩ :=
            copy_file_none hdst hcf
          obtain ⟨ia, ib, ic, imono, isub, ichain, iwf⟩ := ih dst1 hwf1 hndrest h
          refine ⟨?_, ?_, ?_, ?_, ?_, ?_, iwf⟩
          · intro rel c hrel hgrel
            rcases List.mem_cons.mp hrel with rfl | hrel
            · rw [hg0] at hgrel
              injection hgrel with hx
              injection hx with hx
              subst hx
              rw [ic rel hndp, hget]
            · exact ia rel c hrel hgrel
          · intro q hq
            have hqp : q ≠ p := by
              intro hh
              subst hh
              rw [hq] at hg0
              exact Option.noConfusion hg0
            rw [ib q hq, hother q hqp]
          · intro q hq
            have hqp : q ≠ p := fun hh => hq (hh ▸ List.mem_cons_self p rest)
            rw [ic q (fun hh => hq (List.mem_cons_of_mem _ hh)), hother q hqp]
          · intro q hq
            exact imono q (hmono q hq)
          · intro q hq
            rcases isub q hq with hq1 | ⟨rel, hrel, hsome, hin⟩
            · rcases hsub2 q hq1 with hq2 | hq2
              · exact Or.inl hq2
              · exact Or.inr ⟨p, List.mem_cons_self p rest, by rw [hg0]; rfl, hq2⟩
            · exact Or.inr ⟨rel, List.mem_cons_of_mem _ hrel, hsome, hin⟩
          · intro rel c hrel hgrel q hq
            rcases List.mem_cons.mp hrel with rfl | hrel
            · exact imono q (hchain q hq)
            · exact ichain rel c hrel hgrel q hq
    · have hg : src.getF p = none := by
        rw [FS.is_file] at hf
        cases hgg : src.getF p with
        | none => rfl
        | some d => rw [hgg] at hf; simp at hf
      have hred : copyGo src (p :: rest) dst = copyGo src rest dst := by
        simp only [copyGo]
        rw [if_neg hf]
      rw [hred] at h
      obtain ⟨ia, ib, ic, imono, isub, ichain, iwf⟩ := ih dst hdst hndrest h
      refine ⟨?_, ib, ?_, imono, ?_, ?_, iwf⟩
      · intro rel c hrel hgrel
        rcases List.mem_cons.mp hrel with rfl | hrel
        · rw [hg] at hgrel
          exact Option.noConfusion hgrel
        · exact ia rel c hrel hgrel
      · intro q hq
        exact ic q (fun hh => hq (List.mem_cons_of_mem _ hh))
      · intro q hq
        rcases isub q hq with hq1 | ⟨rel, hrel, hsome, hin⟩
        · exact Or.inl hq1
        · exact Or.inr ⟨rel, List.mem_cons_of_mem _ hrel, hsome, hin⟩
      · intro rel c hrel hgrel q hq
        rcases List.mem_cons.mp hrel with rfl | hrel
        · rw [hg] at hgrel
          exact Option.noConfusion hgrel
        · exact ichain rel c hrel hgrel q hq

/-- The copy loop processes a concatenation left to right, aborting at the
first failure. -/
theorem copyGo_append (src : FS) (L1 L2 : List FPath) (dst : FS) :
    copyGo src (L1 ++ L2) dst =
      (match copyGo src L1 dst with
       | (d, none) => copyGo src L2 d
       | (d, some e) => (d, some e)) := by
  induction L1 generalizing dst with
  | nil => rfl
  | cons p rest ih =>
    by_cases hf : src.is_file p = true
    · cases hcf : copy_file src p dst with
      | mk dst1 r =>
        cases r with
        | none =>
          simp only [List.cons_append, copyGo, hf, if_true, hcf]
          exact ih dst1
        | some e =>
          simp only [List.cons_append, copyGo, hf, if_true, hcf]
    · simp only [List.cons_append, copyGo]
      rw [if_neg hf, if_neg hf]
      exact ih dst

theorem mem_walkAll {src : FS} {p : FPath} (h : p ∈ allPaths src) :
    p ∈ walkAll src :=
  List.mem_cons_of_mem _ (mem_walk.mpr ⟨h, List.nil_prefix⟩)

theorem walkAll_nodup {src : FS} (hwf : src.WF) : (walkAll src).Nodup :=
  List.nodup_cons.mpr
    ⟨fun hmem => absurd rfl (hwf.ne_nil_of_mem (mem_walk.mp hmem).1),
      walk_nodup hwf []⟩

/-- Claim C2 — folder-copy correctness: when `copy_folder` succeeds on
well-formed source and destination trees, every regular file of the
source exists at its mirrored relative path in the destination with
identical bytes (overwriting any pre-existing destination file there
unconditionally), the destination parent chain of every copied file has
been created, destination files at paths not mirrored from the source are
unchanged, and a source directory containing no files is not recreated in
the destination. -/
theorem copy_folder_spec (src dst dst' : FS) (hsrc : src.WF) (hdst : dst.WF)
    (h : copy_folder (some src) dst = (dst', none)) :
    (∀ rel c, src.getF rel = some (.text c) → dst'.getF rel = some (.text c)) ∧
    (∀ rel c, src.getF rel = some (.text c) →
      ∀ q ∈ inits' rel.dropLast, q ∈ dst'.dirs) ∧
    (∀ q, src.getF q = none → dst'.getF q = dst.getF q) ∧
    (∀ d, d ∈ src.dirs →
      (∀ rel ∈ src.files.map Prod.fst, ¬(d <+: rel ∧ d ≠ rel)) →
      (d ∈ dst'.dirs ↔ d ∈ dst.dirs)) := by
  have hgo : copyGo src (walkAll src) dst = (dst', none) := h
  obtain ⟨ia, ib, _, imono, isub, ichain, _⟩ :=
    copyGo_char src (walkAll src) dst hdst (walkAll_nodup hsrc) hgo
  have hmem : ∀ rel (c : String), src.getF rel = some (.text c) →
      rel ∈ walkAll src := by
    intro rel c hg
    refine mem_walkAll (List.mem_append_left _ (lookupF_isSome_iff.mp ?_))
    unfold FS.getF at hg
    rw [hg]
    rfl
  refine ⟨?_, ?_, ib, ?_⟩
  · intro rel c hg
    exact ia rel c (hmem rel c hg) hg
  · intro rel c hg
    exact ichain rel c (hmem rel c hg) hg
  · intro d hd hnof
    constructor
    · intro hdm
      rcases isub d hdm with hq | ⟨rel, _, hsome, hin⟩
      · exact hq
      · exfalso
        have hrelfile : rel ∈ src.files.map Prod.fst := lookupF_isSome_iff.mp hsome
        apply hnof rel hrelfile
        obtain ⟨hdn, hdpre⟩ := mem_inits'.mp hin
        have h1 : d <+: rel := hdpre.trans (List.dropLast_prefix rel)
        have h2 : d ≠ rel := by
          intro hh
          subst hh
          have hlen := hdpre.length_le
          rw [List.length_dropLast] at hlen
          have hpos : 0 < d.length := List.length_pos.mpr hdn
          omega
        exact ⟨h1, h2⟩
    · intro hdm
      exact imono d hdm

/-- Source tree for the copy witnesses: two files (one nested) and one
empty directory. -/
def srcW : FS :=
  { files := [(["f.txt"], .text "new"), (["sub", "g.txt"], .text "hi")],
    dirs := [["sub"], ["empty"]], writes := 0 }

/-- Destination tree for the copy witnesses: a stale file at a mirrored
path and an unrelated file. -/
def dstW : FS :=
  { files := [(["f.txt"], .text "old"), (["keep.txt"], .text "keep")],
    dirs := [], writes := 0 }

/-- Witness for `copy_folder_spec`: the mirrored file is overwritten, the
unrelated destination file is untouched, and the empty source directory is
not recreated. -/
theorem copy_folder_spec_witness :
    (copy_folder (some srcW) dstW).1.getF ["f.txt"] = some (.text "new") ∧
    (copy_folder (some srcW) dstW).1.getF ["keep.txt"] = some (.text "keep") ∧
    (["empty"] ∈ (copy_folder (some srcW) dstW).1.dirs ↔ ["empty"] ∈ dstW.dirs) := by
  obtain ⟨ha, _, hc, hd⟩ := copy_folder_spec srcW dstW (copy_folder (some srcW) dstW).1
    (by decide) (by decide) rfl
  refine ⟨ha ["f.txt"] "new" rfl, ?_, hd ["empty"] (by decide) (by decide)⟩
  rw [hc ["keep.txt"] rfl]
  rfl

/-- Claim C3 — folder-copy failure policy: the loop copies the walker
entries in order; at the first file whose copy panics the whole operation
aborts with that panic, the files of the destination are exactly those
already copied (no rollback, and no per-item tolerance that would copy the
remaining entries), and every file copied before the failing entry is in
place with its source bytes. -/
theorem copy_folder_first_failure (src dst : FS) (L1 L2 : List FPath)
    (p : FPath) (d1 df : FS) (e : String) (hsrc : src.WF) (hdst : dst.WF)
    (hwalk : walkAll src = L1 ++ p :: L2)
    (hL1 : copyGo src L1 dst = (d1, none))
    (hfile : src.is_file p = true)
    (hfail : copy_file src p d1 = (df, some e)) :
    copy_folder (some src) dst = (df, some e) ∧
    df.files = d1.files ∧
    (∀ rel c, rel ∈ L1 → src.getF rel = some (.text c) →
      d1.getF rel = some (.text c)) := by
  have hnd1 : L1.Nodup := by
    have hnd := walkAll_nodup hsrc
    rw [hwalk] at hnd
    exact (List.nodup_append.mp hnd).1
  refine ⟨?_, copy_file_err_files hfail, ?_⟩
  · show copyGo src (walkAll src) dst = (df, some e)
    rw [hwalk, copyGo_append, hL1]
    show copyGo src (p :: L2) d1 = (df, some e)
    simp only [copyGo, hfile, if_true, hfail]
  · intro rel c hrel hg
    obtain ⟨ia, _, _, _, _, _, _⟩ := copyGo_char src L1 dst hdst hnd1 hL1
    exact ia rel c hrel hg

/-- Witness for `copy_folder_first_failure`: an unreadable source file
aborts the copy after the first file was already copied; that file
remains in the destination. -/
theorem copy_folder_first_failure_witness :
    copy_folder (some ⟨[(["a.txt"], .text "x"), (["b.txt"], .unreadable)], [], 0⟩)
        ⟨[], [], 0⟩ =
      (⟨[(["a.txt"], .text "x")], [], 1⟩, some "failed to copy file") ∧
    (⟨[(["a.txt"], .text "x")], [], 1⟩ : FS).getF ["a.txt"] = some (.text "x") := by
  obtain ⟨h1, _, h3⟩ := copy_folder_first_failure
    ⟨[(["a.txt"], .text "x"), (["b.txt"], .unreadable)], [], 0⟩
    ⟨[], [], 0⟩ [[], ["a.txt"]] [] ["b.txt"]
    ⟨[(["a.txt"], .text "x")], [], 1⟩ ⟨[(["a.txt"], .text "x")], [], 1⟩
    "failed to copy file" (by decide) (by decide) rfl rfl rfl rfl
  exact ⟨h1, h3 ["a.txt"] "x" (by decide) rfl⟩

/-- Claim C10 — nonexistent-source edge case: when the source root does
not exist, `WalkDir::new(from)` yields a single `Err` entry which
`filter_map(Result::ok)` discards, so `copy_folder` returns normally and
creates nothing at the destination: the destination region is returned
unchanged with no fatal error. -/
theorem copy_folder_missing_source (t : FS) :
    copy_folder none t = (t, none) := rfl

/-- Source `get_last_path_component`: the last segment of the path
(`components().next_back()`; total here, defaulting to the empty string
on the root, which the printer never asks for). -/
def get_last_path_component (p : FPath) : String := p.getLastD ""

/-- The full display form of a path (`path.display()`), segments joined
by the separator. -/
def displayPath (p : FPath) : String := String.intercalate "/" p

/-- The sorted one-level listing that `list_folder_contents` returns on a
directory (its `.ok` payload). -/
def sortChildren (fs : FS) (p : FPath) : List FPath :=
  List.insertionSort pathR
    ((allPaths fs).filter (fun q => decide (q.dropLast = p ∧ q ≠ [])))

theorem list_folder_contents_eq_ok {fs : FS} {p : FPath} (h : fs.is_dir p = true) :
    list_folder_contents fs p = .ok (sortChildren fs p) := by
  unfold list_folder_contents sortChildren
  rw [h]
  rfl

/-- Source `helper`, fueled: render one sibling list.  Each entry yields
its own line — the accumulated indentation prefix, the connector (`└── `
for the last sibling, `├── ` otherwise), and its last path component —
followed by the lines of its children (for a directory: the sorted
one-level listing, with the prefix extended by blank padding after a last
sibling and by a vertical-bar segment otherwise), followed by the
remaining siblings.  The fuel dominates the recursion depth; every call
site uses a fuel larger than the longest path of the region, so the `0`
case is never reached there. -/
def helperF (fs : FS) : Nat → List FPath → String → List String
  | 0, _, _ => []
  | _ + 1, [], _ => []
  | fuel + 1, path :: rest, pre =>
    ((pre ++ (if rest.isEmpty then "└── " else "├── ") ++
        get_last_path_component path) ::
      (if fs.is_dir path then
        helperF fs fuel (sortChildren fs path)
          (pre ++ (if rest.isEmpty then "    " else "│   "))
      else [])) ++ helperF fs fuel rest pre

/-- Source `write_folder_tree`: the root's full display form on one
unindented line, then the rendered entries of the root's sorted listing;
fatal when the root is not a directory. -/
def write_folder_tree (fs : FS) (fuel : Nat) (p : FPath) :
    Except String (List String) :=
  match list_folder_contents fs p with
  | .error e => .error e
  | .ok entries => .ok (displayPath p :: helperF fs fuel entries "")

/-- Modelled from the spec's words: the indentation prefix is built from
the ancestor "is this the last sibling" flags — a continuing sibling
contributes a vertical-bar segment, a last sibling blank padding. -/
def prefixOfFlags : List Bool → String
  | [] => ""
  | b :: rest => (if b then "    " else "│   ") ++ prefixOfFlags rest

/-- Modelled from the spec's words (tree-printer output format): one line
per entry in sorted one-level listing order, consisting of the prefix
built from the ancestor last-sibling flags, a connector chosen by the
entry's own last-sibling flag, and the entry's last path component;
recursion descends into every directory with the entry's flag appended,
files are leaves. -/
def specLines (fs : FS) : Nat → List FPath → List Bool → List String
  | 0, _, _ => []
  | _ + 1, [], _ => []
  | fuel + 1, path :: rest, flags =>
    ((prefixOfFlags flags ++ (if rest.isEmpty then "└── " else "├── ") ++
        get_last_path_component path) ::
      (if fs.is_dir path then
        specLines fs fuel (sortChildren fs path) (flags ++ [rest.isEmpty])
      else [])) ++ specLines fs fuel rest flags

/-- Modelled from the spec's words: the root path's full display form on
one unindented line, then one line per descendant entry as in
`specLines`, starting from no ancestor flags. -/
def spec_folder_tree (fs : FS) (fuel : Nat) (p : FPath) :
    Except String (List String) :=
  match list_folder_contents fs p with
  | .error e => .error e
  | .ok entries => .ok (displayPath p :: specLines fs fuel entries [])

theorem prefixOfFlags_snoc (flags : List Bool) (b : Bool) :
    prefixOfFlags (flags ++ [b]) =
      prefixOfFlags flags ++ (if b then "    " else "│   ") := by
  induction flags with
  | nil =>
    show (if b then "    " else "│   ") ++ prefixOfFlags [] =
      prefixOfFlags [] ++ (if b then "    " else "│   ")
    apply String.ext
    simp [String.data_append, prefixOfFlags]
  | cons a as ih =>
    show (if a then "    " else "│   ") ++ prefixOfFlags (as ++ [b]) = _
    rw [ih]
    apply String.ext
    simp [String.data_append, prefixOfFlags, List.append_assoc]

theorem helperF_eq_specLines (fs : FS) (fuel : Nat) (entries : List FPath)
    (flags : List Bool) :
    helperF fs fuel entries (prefixOfFlags flags) = specLines fs fuel entries flags := by
  induction fuel generalizing entries flags with
  | zero => rfl
  | succ fuel ih =>
    cases entries with
    | nil => rfl
    | cons path rest =>
      simp only [helperF, specLines]
      rw [← prefixOfFlags_snoc flags rest.isEmpty,
        ih (sortChildren fs path) (flags ++ [rest.isEmpty]), ih rest flags]

/-- Claim C7 — tree-printer output format: for every region, fuel and
root, the writer's output equals the spec's rendition (root display line
first, then one line per entry in sorted one-level listing order, each
line being the ancestor-flags prefix, the connector picked by the entry's
own last-sibling flag, and the entry's last path component, recursing
into every directory, files as leaves); on the example layout the output
is exactly the root line, `├── file1.txt`, `├── file2.txt`,
`└── subfolder`, `    └── file3.txt`. -/
theorem write_folder_tree_spec :
    (∀ (fs : FS) (fuel : Nat) (p : FPath),
      write_folder_tree fs fuel p = spec_folder_tree fs fuel p) ∧
    write_folder_tree exFS 5 ["r"] =
      .ok ["r", "├── file1.txt", "├── file2.txt", "└── subfolder",
        "    └── file3.txt"] := by
  constructor
  · intro fs fuel p
    unfold write_folder_tree spec_folder_tree
    cases hl : list_folder_contents fs p with
    | error e => rfl
    | ok entries =>
      show Except.ok (displayPath p :: helperF fs fuel entries "") =
        Except.ok (displayPath p :: specLines fs fuel entries [])
      rw [show ("" : String) = prefixOfFlags [] from rfl,
        helperF_eq_specLines fs fuel entries []]
  · rfl
